import Mathlib

/-!
# Verification of the Bike-Stats code (pytudes, BikeCode.ipynb)

Shallow embedding of the numeric and string kernels of the notebook:
duration parsing, ride-metric derivation, badge and progress
computation, display rounding, the Eddington-number calculator, and
the degree-1 polynomial least-squares fit.  Python floats are
modelled as exact rationals; Python `round` (banker's rounding) is
modelled by `halfEven`; a non-finite float (inf or NaN, as produced
by numpy/pandas division by zero) is modelled by `none` in an
`Option`; a raised exception is modelled by `none` in an `Option`
result.
-/

namespace BikeCode

/-- Python `round(x)` on a real value: round half to even, to an integer. -/
def halfEven (x : ℚ) : ℤ :=
  let f := x.floor
  let r := x - (f : ℚ)
  if r < 1/2 then f
  else if 1/2 < r then f + 1
  else if f % 2 = 0 then f else f + 1

/-- Python `round(x, 2)`: round to 2 decimal places, half to even. -/
def round2 (x : ℚ) : ℚ := (halfEven (x * 100) : ℚ) / 100

/-- Insert a thousands-separator comma after every third character.
The input is the reversed digit string of a natural number. -/
def group3 : List Char → List Char
  | [] => []
  | [a] => [a]
  | [a, b] => [a, b]
  | [a, b, c] => [a, b, c]
  | a :: b :: c :: rest => a :: b :: c :: ',' :: group3 rest

/-- Python `f string` directive `{n:,d}`: integer with thousands separators. -/
def fmtGrouped (n : ℤ) : String :=
  (if n < 0 then ("-") else ("")) ++ String.mk (group3 (toString n.natAbs).data.reverse).reverse

/-- Pad a string on the left with spaces to the given width
(Python directive `{s:>w}`). -/
def padLeft (w : ℕ) (s : String) : String :=
  String.mk (List.replicate (w - s.length) ' ') ++ s

/-- Render the integer `m` as a fixed-point decimal with `j` digits after
the point; `m` is the value scaled by `10 ^ j`.  Helper for the Python
directives `{x:.1f}` and `{x:4.2f}`. -/
def renderFixed (m : ℤ) (j : ℕ) : String :=
  let ds := toString m.natAbs
  let ds := if ds.length ≤ j then String.mk (List.replicate (j + 1 - ds.length) '0') ++ ds else ds
  let k := ds.length - j
  (if m < 0 then ("-") else ("")) ++ String.mk (ds.data.take k) ++
    (if j = 0 then ("") else ("." ++ String.mk (ds.data.drop k)))

/-- Python directive `{x:.1f}`: one decimal place, half-even rounding. -/
def fmt1 (x : ℚ) : String := renderFixed (halfEven (x * 10)) 1

/-- Python directive `{x:4.2f}`: two decimal places, half-even rounding,
padded to width 4. -/
def fmt42 (x : ℚ) : String := padLeft 4 (renderFixed (halfEven (x * 100)) 2)

/-- Smallest exponent `j` with `den` dividing `10 ^ j`, when one exists
below the searched bound.  Used to print a rational exactly as Python
prints the corresponding decimal float literal. -/
def decExp (den : ℕ) : Option ℕ :=
  (List.range (den + 1)).find? (fun j => 10 ^ j % den == 0)

/-- How Python `str` renders a tier-table key: integers without a decimal
point, decimal fractions (such as 0.02, 0.1, 0.2) with their shortest
exact decimal expansion.  All keys of the notebook's tables are of these
two shapes; other rationals fall back to a fraction rendering. -/
def fmtKey (q : ℚ) : String :=
  if q.den = 1 then (if q.num < 0 then ("-") else ("")) ++ toString q.num.natAbs
  else
    match decExp q.den with
    | some j => renderFixed (q.num * 10 ^ j / (q.den : ℤ)) j
    | none => toString q.num ++ ("/") ++ toString q.den

/-- The display-rounding routine `rounded` of the notebook:
values above one million recurse on the value divided by a million and
append an M; values above one hundred thousand print as millions to two
decimals; values above ten print as thousands-grouped integers; the rest
print to one decimal place. -/
def rounded (x : ℚ) : String :=
  if _h : 1000000 < x then rounded (x / 1000000) ++ "M"
  else if 100000 < x then fmt42 (x / 1000000) ++ "M"
  else if 10 < x then fmtGrouped (halfEven x)
  else fmt1 x
termination_by x.floor.toNat
decreasing_by
  have hd : ((x / 1000000).floor : ℚ) ≤ x / 1000000 := Rat.le_floor.mp le_rfl
  have hlt : (x / 1000000).floor < x.floor := by
    have h2 : ((x / 1000000).floor + 1 : ℤ) ≤ x.floor := by
      rw [Rat.le_floor]
      push_cast
      linarith
    omega
  have hpos : (0 : ℤ) < x.floor := by
    have : ((1 : ℤ) : ℚ) ≤ x := by push_cast; linarith
    have := Rat.le_floor.mpr this
    omega
  omega

/-- The ordered badge tiers scanned by `badge`. -/
def badgeTiers : List ℕ := [99, 90, 75, 50, 25]

/-- The function `badge` of the notebook: the first tier (scanning
99, 90, 75, 50, 25) that the percentage has reached, or none. -/
def badge (pct : ℚ) : String :=
  match badgeTiers.find? (fun (b : ℕ) => decide ((b : ℚ) ≤ pct)) with
  | some b => toString b ++ ("%")
  | none => "none"

/-- The fine-grained tier table `bonuses` of the notebook, as the ordered
list of (threshold percent, bonus multiplier) pairs of the source dict. -/
def bonuses : List (ℚ × ℚ) :=
  [(1/50, 0), (1/10, 0), (1/5, 0), (1, 0), (2, 0),
   (25, 1/4), (50, 1/20), (75, 1/10), (90, 1/2), (99, 1/10)]

/-- The function `to_go` of the notebook: scan the tier table in order
for the first threshold whose target mileage exceeds the mileage done,
and describe the distance and bonus points to that threshold. -/
def to_go (pct miles : ℚ) (table : List (ℚ × ℚ)) : String :=
  let done := pct * miles / 100
  match table.find? (fun e => decide (done < e.1 / 100 * miles)) with
  | some e =>
      padLeft 5 (rounded (e.1 / 100 * miles - done)) ++ " mi to " ++ fmtKey e.1 ++
        "% (" ++ rounded (e.2 * miles + (e.1 / 100 * miles - done)) ++ " points)"
  | none => ""

/-- Following the spec's words (section 4.5): the report for a threshold
`b` with bonus multiplier `beta` names the delta miles needed
(target minus done) and the points awarded
(bonus multiplier times total miles, plus the delta miles). -/
def toGoReportSpec (p m b beta : ℚ) : String :=
  let done := p * m / 100
  let delta := b * m / 100 - done
  let points := beta * m + delta
  padLeft 5 (rounded delta) ++ " mi to " ++ fmtKey b ++ "% (" ++ rounded points ++ " points)"

/-- Python `int(s)` on the all-digit fields of a duration string. -/
def parseNatDigits (s : String) : Option ℕ :=
  if s.data ≠ [] ∧ s.data.all Char.isDigit = true then
    some (s.data.foldl (fun n c => 10 * n + (c.toNat - 48)) 0)
  else none

/-- Parse every field of a split duration string; any bad field is a
failure of the whole parse (Python `int` raising ValueError). -/
def parseFields : List String → Option (List ℕ)
  | [] => some []
  | s :: rest =>
    match parseNatDigits s, parseFields rest with
    | some v, some vs => some (v :: vs)
    | _, _ => none

/-- The weighted sum of `parse_hours`: the field at offset `i` from the
right weighs `60 ^ (i - 2)` (integer exponent, so negative powers for
seconds and minutes).  The counter starts at the enumeration origin. -/
def hoursSumAux : ℕ → List ℕ → ℚ
  | _, [] => 0
  | i, v :: rest => (v : ℚ) * 60 ^ ((i : ℤ) - 2) + hoursSumAux (i + 1) rest

/-- The function `parse_hours` of the notebook: split on colons, weight
the fields from the right by powers of sixty, round to 2 decimals. -/
def parse_hours (time : String) : Option ℚ :=
  (parseFields (time.split (fun c => c == ':'))).map
    (fun vals => round2 (hoursSumAux 0 vals.reverse))

/-- Following the spec's words (section 4.1): sum over fields from the
right of `value * 60 ^ (position - 2)`, position 0 being the rightmost
field, rounded to 2 decimal places. -/
def specHours (vals : List ℕ) : ℚ :=
  round2 (∑ j ∈ Finset.range vals.length, (vals.reverse.getD j 0 : ℚ) * 60 ^ ((j : ℤ) - 2))

/-- A parsed ride row: the three stored numeric columns. -/
structure Ride where
  miles : ℚ
  hours : ℚ
  feet : ℚ

/-- Float (numpy/pandas) division: division by zero silently yields a
non-finite value (inf or NaN), modelled as `none`; no exception. -/
def fdiv (a b : ℚ) : Option ℚ := if b = 0 then none else some (a / b)

/-- The derived columns added by `add_ride_columns`.  The four ratio
columns can be non-finite when a denominator is zero. -/
structure RideDerived where
  mph : Option ℚ
  vam : Option ℚ
  fpmi : Option ℚ
  pct : Option ℚ
  kms : ℚ
  meters : ℚ

/-- The function `add_ride_columns` of the notebook, on one row:
mph = miles/hours, vam = feet/hours/3.28084, fpmi = feet/miles,
pct = feet/miles*100/5280, kms = miles*1.609, meters = feet*0.3048,
each rounded as in the source.  Ratio columns use float division,
which silently produces non-finite values on a zero denominator. -/
def add_ride_columns (r : Ride) : RideDerived where
  mph := (fdiv r.miles r.hours).map round2
  vam := (fdiv r.feet r.hours).map (fun q => (halfEven (q / (328084/100000)) : ℚ))
  fpmi := (fdiv r.feet r.miles).map (fun q => (halfEven q : ℚ))
  pct := (fdiv r.feet r.miles).map (fun q => round2 (q * 100 / 5280))
  kms := round2 (r.miles * (1609/1000))
  meters := (halfEven (r.feet * (3048/10000)) : ℚ)

/-- Python `sorted(distances, reverse=True)`. -/
def sortDesc (l : List ℚ) : List ℚ := List.insertionSort (fun a b => a ≥ b) l

/-- The candidate Eddington numbers of `Ed_number`: the generator
`(e for e, d in enumerate(distances, 1) if d >= e)`, with `e`
starting from the given origin. -/
def edCandAux : ℕ → List ℚ → List ℕ
  | _, [] => []
  | e, d :: rest => if (e : ℚ) ≤ d then e :: edCandAux (e + 1) rest else edCandAux (e + 1) rest

/-- Python `max` over a list: `none` on an empty list (ValueError). -/
def pymax : List ℕ → Option ℕ
  | [] => none
  | a :: t => some (t.foldl Nat.max a)

/-- The function `Ed_number` of the notebook, on the extracted distance
column: sort descending, enumerate from 1, keep ranks not exceeding
their distance, and take the Python `max` (which raises, modelled as
`none`, when no rank qualifies). -/
def Ed_number (distances : List ℚ) : Option ℕ :=
  pymax (edCandAux 1 (sortDesc distances))

/-- The number of entries of `l` that are at least `v`. -/
def countGeQ (l : List ℚ) (v : ℚ) : ℕ := (l.filter (fun d => decide (v ≤ d))).length

/-- The number of entries of `l` that are at least the integer `e`. -/
def countGe (l : List ℚ) (e : ℕ) : ℕ := countGeQ l (e : ℚ)

/-- Modelled from the spec: `np.polyfit(X, Y, 1)` is third-party library
code, specified in section 4.3 as the standard least-squares fit via the
normal equations; this is their closed form at degree 1, returning
(intercept, slope) in the ascending-power order used by `poly_fit`. -/
def poly_fit1 (pts : List (ℚ × ℚ)) : ℚ × ℚ :=
  let n : ℚ := pts.length
  let sx := (pts.map Prod.fst).sum
  let sy := (pts.map Prod.snd).sum
  let sxx := (pts.map (fun p => p.1 ^ 2)).sum
  let sxy := (pts.map (fun p => p.1 * p.2)).sum
  let c1 := (n * sxy - sx * sy) / (n * sxx - sx ^ 2)
  let c0 := (sy - c1 * sx) / n
  (c0, c1)

/-- The evaluator closure returned by `poly_fit` at degree 1:
the sum of coefficient times power of x. -/
def evalPoly1 (c : ℚ × ℚ) (x : ℚ) : ℚ := c.1 + c.2 * x

/-- The least-squares objective of the fit: the sum of squared residuals. -/
def SSE (pts : List (ℚ × ℚ)) (c0 c1 : ℚ) : ℚ :=
  (pts.map (fun p => (p.2 - (c0 + c1 * p.1)) ^ 2)).sum

/-- The perfectly linear samples of the spec's round-trip test:
y = 2x + 1 at x = 0..10. -/
def linearSamples : List (ℚ × ℚ) :=
  (List.range 11).map (fun i => ((i : ℚ), 2 * (i : ℚ) + 1))

/-! ## Unfolding lemmas for the display rounding -/

theorem rounded_of_gt_million {x : ℚ} (h : 1000000 < x) :
    rounded x = rounded (x / 1000000) ++ "M" := by
  rw [rounded]
  rw [dif_pos h]

theorem rounded_of_gt_1e5 {x : ℚ} (h1 : 100000 < x) (h2 : x ≤ 1000000) :
    rounded x = fmt42 (x / 1000000) ++ "M" := by
  rw [rounded]
  rw [dif_neg (by linarith), if_pos h1]

theorem rounded_of_gt_ten {x : ℚ} (h1 : 10 < x) (h2 : x ≤ 100000) :
    rounded x = fmtGrouped (halfEven x) := by
  rw [rounded]
  rw [dif_neg (by linarith), if_neg (by linarith), if_pos h1]

theorem rounded_of_le_ten {x : ℚ} (h : x ≤ 10) : rounded x = fmt1 x := by
  rw [rounded]
  rw [dif_neg (by linarith), if_neg (by linarith), if_neg (by linarith)]

theorem rounded_eval_50 : rounded 50 = "50" := by
  rw [rounded_of_gt_ten (by norm_num) (by norm_num)]
  with_unfolding_all decide

theorem rounded_eval_300 : rounded 300 = "300" := by
  rw [rounded_of_gt_ten (by norm_num) (by norm_num)]
  with_unfolding_all decide

theorem rounded_eval_15 : rounded 15 = "15" := by
  rw [rounded_of_gt_ten (by norm_num) (by norm_num)]
  with_unfolding_all decide

theorem rounded_eval_53_tenths : rounded (53/10) = "5.3" := by
  rw [rounded_of_le_ten (by norm_num)]
  with_unfolding_all decide

theorem rounded_eval_3_halves : rounded (3/2) = "1.5" := by
  rw [rounded_of_le_ten (by norm_num)]
  with_unfolding_all decide

theorem rounded_eval_million_and_half : rounded 1500000 = "1.5M" := by
  rw [rounded_of_gt_million (by norm_num)]
  have h : (1500000 : ℚ) / 1000000 = 3/2 := by norm_num
  rw [h, rounded_eval_3_halves]
  rfl

/-! ## Claim C5: the display-rounding routine -/

/-- C5 (amended): the branch rule of `rounded` holds as specified, and
`rounded 15 = "15"` and `rounded 5.3 = "5.3"`; but `rounded 1500000`
is `"1.5M"` (the recursive call on 1.5 bottoms out in the one-decimal
branch), not `"1.50M"` as the claim stated. -/
theorem rounded_formatting_rule :
    (∀ x : ℚ, 1000000 < x → rounded x = rounded (x / 1000000) ++ "M") ∧
    (∀ x : ℚ, 100000 < x → x ≤ 1000000 → rounded x = fmt42 (x / 1000000) ++ "M") ∧
    (∀ x : ℚ, 10 < x → x ≤ 100000 → rounded x = fmtGrouped (halfEven x)) ∧
    (∀ x : ℚ, x ≤ 10 → rounded x = fmt1 x) ∧
    rounded 1500000 = "1.5M" ∧ rounded 15 = "15" ∧ rounded (53/10) = "5.3" :=
  ⟨fun _ h => rounded_of_gt_million h, fun _ h1 h2 => rounded_of_gt_1e5 h1 h2,
   fun _ h1 h2 => rounded_of_gt_ten h1 h2, fun _ h => rounded_of_le_ten h,
   rounded_eval_million_and_half, rounded_eval_15, rounded_eval_53_tenths⟩

/-- Witness for C5: the grouped-integer branch evaluated at 15. -/
theorem rounded_formatting_rule_witness :
    (10 : ℚ) < 15 ∧ (15 : ℚ) ≤ 100000 ∧ rounded 15 = fmtGrouped (halfEven 15) :=
  ⟨by decide, by decide, rounded_formatting_rule.2.2.1 15 (by decide) (by decide)⟩

/-- Counterexample for C5 as stated: `rounded 1500000` is not `"1.50M"`. -/
theorem rounded_million_and_half_cex : rounded 1500000 ≠ "1.50M" := by
  rw [rounded_eval_million_and_half]
  decide

/-! ## Unfolding lemmas for `to_go` -/

theorem to_go_of_find_some {p m b beta : ℚ} {table : List (ℚ × ℚ)}
    (h : table.find? (fun e => decide (p * m / 100 < e.1 / 100 * m)) = some (b, beta)) :
    to_go p m table = padLeft 5 (rounded (b / 100 * m - p * m / 100)) ++ " mi to " ++
      fmtKey b ++ "% (" ++ rounded (beta * m + (b / 100 * m - p * m / 100)) ++ " points)" := by
  simp only [to_go]
  rw [h]

theorem to_go_of_find_none {p m : ℚ} {table : List (ℚ × ℚ)}
    (h : table.find? (fun e => decide (p * m / 100 < e.1 / 100 * m)) = none) :
    to_go p m table = "" := by
  simp only [to_go]
  rw [h]

/-! ## Claim C4: `to_go` at 20 percent of 1000 miles -/

/-- Shared evaluation: the full output string of `to_go` at p = 20,
m = 1000 with the fine-grained table. -/
theorem to_go_eval_20_1000 : to_go 20 1000 bonuses = "   50 mi to 25% (300 points)" := by
  have hfind : bonuses.find? (fun e => decide ((20 : ℚ) * 1000 / 100 < e.1 / 100 * 1000)) =
      some (25, 1/4) := by with_unfolding_all decide
  rw [to_go_of_find_some hfind]
  have h1 : (25 : ℚ) / 100 * 1000 - 20 * 1000 / 100 = 50 := by norm_num
  have h2 : (1 : ℚ) / 4 * 1000 + 50 = 300 := by norm_num
  rw [h1, h2, rounded_eval_50, rounded_eval_300]
  with_unfolding_all decide

/-- C4 (amended): at p = 20, m = 1000 with the fine table, `to_go`
reports the 25 percent tier with delta 50 miles and 300 points, but the
delta is rendered by `rounded` as `"50"` (the grouped-integer branch,
padded to width 5), not `"50.0"`. -/
theorem to_go_at_20_percent :
    to_go 20 1000 bonuses = "   50 mi to 25% (300 points)" ∧
    rounded 50 = "50" ∧ rounded 300 = "300" :=
  ⟨to_go_eval_20_1000, rounded_eval_50, rounded_eval_300⟩

/-- Counterexample for C4 as stated: the delta 50 is not rendered
`"50.0"`, and the output is not the string the claim describes. -/
theorem to_go_delta_render_cex :
    rounded 50 ≠ "50.0" ∧ to_go 20 1000 bonuses ≠ " 50.0 mi to 25% (300 points)" := by
  constructor
  · rw [rounded_eval_50]
    decide
  · rw [to_go_eval_20_1000]
    decide

/-! ## Claim C3: `to_go` scans the table in order for the first
threshold past the current progress -/

/-- C3 (confirmed): for percentages in range and positive total miles,
`to_go` computes done = p*m/100, returns the spec's report for the first
table entry whose target miles b*m/100 exceed done, and returns the
empty string when no entry's target exceeds done. -/
theorem to_go_first_threshold :
    (∀ (p m b beta : ℚ) (pre rest : List (ℚ × ℚ)),
      0 ≤ p → p ≤ 100 → 0 < m →
      (∀ x ∈ pre, x.1 * m / 100 ≤ p * m / 100) →
      p * m / 100 < b * m / 100 →
      to_go p m (pre ++ (b, beta) :: rest) = toGoReportSpec p m b beta) ∧
    (∀ (p m : ℚ) (table : List (ℚ × ℚ)),
      (∀ x ∈ table, x.1 * m / 100 ≤ p * m / 100) →
      to_go p m table = "") := by
  constructor
  · intro p m b beta pre rest _hp0 _hp100 _hm hpre hb
    have hprenone : pre.find? (fun e => decide (p * m / 100 < e.1 / 100 * m)) = none := by
      rw [List.find?_eq_none]
      intro x hx
      simp only [decide_eq_true_eq]
      have e1 : x.1 / 100 * m = x.1 * m / 100 := by ring
      rw [e1]
      exact not_lt.mpr (hpre x hx)
    have hf : (pre ++ (b, beta) :: rest).find?
        (fun e => decide (p * m / 100 < e.1 / 100 * m)) = some (b, beta) := by
      rw [List.find?_append, hprenone, Option.none_or]
      apply List.find?_cons_of_pos
      simp only [decide_eq_true_eq]
      have e1 : b / 100 * m = b * m / 100 := by ring
      rw [e1]
      exact hb
    rw [to_go_of_find_some hf]
    simp only [toGoReportSpec]
    have e1 : b / 100 * m = b * m / 100 := by ring
    rw [e1]
  · intro p m table htab
    apply to_go_of_find_none
    rw [List.find?_eq_none]
    intro x hx
    simp only [decide_eq_true_eq]
    have e1 : x.1 / 100 * m = x.1 * m / 100 := by ring
    rw [e1]
    exact not_lt.mpr (htab x hx)

/-- Witness for C3: the first-threshold branch applied at p = 20,
m = 1000 with the fine table split around the 25 percent entry. -/
theorem to_go_first_threshold_witness :
    (0 : ℚ) ≤ 20 ∧ (20 : ℚ) ≤ 100 ∧ (0 : ℚ) < 1000 ∧
    (∀ x ∈ ([(1/50, 0), (1/10, 0), (1/5, 0), (1, 0), (2, 0)] : List (ℚ × ℚ)),
      x.1 * 1000 / 100 ≤ (20 : ℚ) * 1000 / 100) ∧
    (20 : ℚ) * 1000 / 100 < 25 * 1000 / 100 ∧
    to_go 20 1000 ([(1/50, 0), (1/10, 0), (1/5, 0), (1, 0), (2, 0)] ++
      (25, (1 : ℚ)/4) :: [(50, 1/20), (75, 1/10), (90, 1/2), (99, 1/10)]) =
      toGoReportSpec 20 1000 25 (1/4) :=
  ⟨by with_unfolding_all decide, by with_unfolding_all decide, by with_unfolding_all decide,
   by with_unfolding_all decide, by with_unfolding_all decide,
   to_go_first_threshold.1 20 1000 25 (1/4) _ _
     (by with_unfolding_all decide) (by with_unfolding_all decide) (by with_unfolding_all decide)
     (by with_unfolding_all decide) (by with_unfolding_all decide)⟩

/-! ## Claim C7: division by zero in the ride-metrics deriver -/

/-- C7 (amended): `add_ride_columns` has no zero guard and raises no
error: with hours = 0 the mph and vam columns, and with miles = 0 the
fpmi and pct columns, are silently the non-finite float marker. -/
theorem add_ride_columns_silent_nonfinite :
    (∀ m f : ℚ, (add_ride_columns ⟨m, 0, f⟩).mph = none ∧
      (add_ride_columns ⟨m, 0, f⟩).vam = none) ∧
    (∀ h f : ℚ, (add_ride_columns ⟨0, h, f⟩).fpmi = none ∧
      (add_ride_columns ⟨0, h, f⟩).pct = none) := by
  refine ⟨fun m f => ?_, fun h f => ?_⟩ <;> simp [add_ride_columns, fdiv]

/-- Counterexample for C7 as stated: at hours = 0 the deriver returns a
row normally, with mph and vam the silent non-finite marker; there is no
error value anywhere in the computation, so no InvalidRecordError. -/
theorem add_ride_columns_no_guard_cex :
    (add_ride_columns ⟨10, 0, 100⟩).mph = none ∧
    (add_ride_columns ⟨10, 0, 100⟩).vam = none := by
  simp [add_ride_columns, fdiv]

/-! ## Claim C2: `Ed_number` on inputs with no qualifying ride -/

theorem edCandAux_nil_of_lt_one (ds : List ℚ) :
    ∀ k : ℕ, 1 ≤ k → (∀ d ∈ ds, d < 1) → edCandAux k ds = [] := by
  induction ds with
  | nil => intro k _ _; rfl
  | cons d t ih =>
    intro k hk hall
    have hk1 : (1 : ℚ) ≤ (k : ℚ) := by exact_mod_cast hk
    have hd : d < 1 := hall d (by simp)
    have hnot : ¬ (k : ℚ) ≤ d := by linarith
    simp only [edCandAux, if_neg hnot]
    exact ih (k + 1) (by omega) (fun x hx => hall x (by simp [hx]))

/-- C2 (amended): when the input is empty or every distance is below 1,
no candidate rank qualifies, and `Ed_number` is the Python
`max of an empty sequence` ValueError, modelled `none`; it does not
return 0. -/
theorem Ed_number_fails_without_qualifier (l : List ℚ) (h : ∀ d ∈ l, d < 1) :
    Ed_number l = none := by
  unfold Ed_number
  rw [edCandAux_nil_of_lt_one (sortDesc l) 1 le_rfl]
  · rfl
  · intro d hd
    apply h
    have : d ∈ sortDesc l ↔ d ∈ l := by
      unfold sortDesc
      exact List.mem_insertionSort _
    exact this.mp hd

/-- Witness for C2: the amended theorem applied to a one-element list
whose only distance is half a mile. -/
theorem Ed_number_fails_without_qualifier_witness :
    (∀ d ∈ [(1 : ℚ)/2], d < 1) ∧ Ed_number [(1 : ℚ)/2] = none :=
  ⟨by with_unfolding_all decide,
   Ed_number_fails_without_qualifier _ (by with_unfolding_all decide)⟩

/-- Counterexample for C2 as stated: on the empty list and on an
all-below-one list, `Ed_number` is the failure marker, not 0. -/
theorem Ed_number_returns_zero_cex :
    Ed_number ([] : List ℚ) = none ∧ Ed_number ([] : List ℚ) ≠ some 0 ∧
    Ed_number [(1 : ℚ)/2] = none ∧ Ed_number [(1 : ℚ)/2] ≠ some 0 := by
  refine ⟨rfl, by decide, ?_, ?_⟩ <;> with_unfolding_all decide

/-! ## Claim C6: the badge function -/

/-- C6 (confirmed): `badge` returns the highest tier of
99, 90, 75, 50, 25 that the percentage has reached, formatted with a
percent suffix, and the string none below 25; in particular at 99.94,
24.9 and 100. -/
theorem badge_highest_tier :
    (∀ (p : ℚ) (t : ℕ), t ∈ badgeTiers → (t : ℚ) ≤ p →
      (∀ u ∈ badgeTiers, (u : ℚ) ≤ p → u ≤ t) → badge p = toString t ++ ("%")) ∧
    (∀ p : ℚ, p < 25 → badge p = "none") ∧
    badge (9994/100) = "99%" ∧ badge (249/10) = "none" ∧ badge 100 = "99%" := by
  refine ⟨?_, ?_, by with_unfolding_all decide, by with_unfolding_all decide,
    by with_unfolding_all decide⟩
  · intro p t ht hle hmax
    fin_cases ht
    · simp only [badge, badgeTiers]
      rw [List.find?_cons_of_pos _ (by simp only [decide_eq_true_eq]; exact hle)]
    · have h99 : ¬ ((99 : ℕ) : ℚ) ≤ p := fun hc => by
        have := hmax 99 (by simp [badgeTiers]) hc
        omega
      simp only [badge, badgeTiers]
      rw [List.find?_cons_of_neg _ (by simp only [decide_eq_true_eq]; exact h99),
        List.find?_cons_of_pos _ (by simp only [decide_eq_true_eq]; exact hle)]
    · have h99 : ¬ ((99 : ℕ) : ℚ) ≤ p := fun hc => by
        have := hmax 99 (by simp [badgeTiers]) hc
        omega
      have h90 : ¬ ((90 : ℕ) : ℚ) ≤ p := fun hc => by
        have := hmax 90 (by simp [badgeTiers]) hc
        omega
      simp only [badge, badgeTiers]
      rw [List.find?_cons_of_neg _ (by simp only [decide_eq_true_eq]; exact h99),
        List.find?_cons_of_neg _ (by simp only [decide_eq_true_eq]; exact h90),
        List.find?_cons_of_pos _ (by simp only [decide_eq_true_eq]; exact hle)]
    · have h99 : ¬ ((99 : ℕ) : ℚ) ≤ p := fun hc => by
        have := hmax 99 (by simp [badgeTiers]) hc
        omega
      have h90 : ¬ ((90 : ℕ) : ℚ) ≤ p := fun hc => by
        have := hmax 90 (by simp [badgeTiers]) hc
        omega
      have h75 : ¬ ((75 : ℕ) : ℚ) ≤ p := fun hc => by
        have := hmax 75 (by simp [badgeTiers]) hc
        omega
      simp only [badge, badgeTiers]
      rw [List.find?_cons_of_neg _ (by simp only [decide_eq_true_eq]; exact h99),
        List.find?_cons_of_neg _ (by simp only [decide_eq_true_eq]; exact h90),
        List.find?_cons_of_neg _ (by simp only [decide_eq_true_eq]; exact h75),
        List.find?_cons_of_pos _ (by simp only [decide_eq_true_eq]; exact hle)]
    · have h99 : ¬ ((99 : ℕ) : ℚ) ≤ p := fun hc => by
        have := hmax 99 (by simp [badgeTiers]) hc
        omega
      have h90 : ¬ ((90 : ℕ) : ℚ) ≤ p := fun hc => by
        have := hmax 90 (by simp [badgeTiers]) hc
        omega
      have h75 : ¬ ((75 : ℕ) : ℚ) ≤ p := fun hc => by
        have := hmax 75 (by simp [badgeTiers]) hc
        omega
      have h50 : ¬ ((50 : ℕ) : ℚ) ≤ p := fun hc => by
        have := hmax 50 (by simp [badgeTiers]) hc
        omega
      simp only [badge, badgeTiers]
      rw [List.find?_cons_of_neg _ (by simp only [decide_eq_true_eq]; exact h99),
        List.find?_cons_of_neg _ (by simp only [decide_eq_true_eq]; exact h90),
        List.find?_cons_of_neg _ (by simp only [decide_eq_true_eq]; exact h75),
        List.find?_cons_of_neg _ (by simp only [decide_eq_true_eq]; exact h50),
        List.find?_cons_of_pos _ (by simp only [decide_eq_true_eq]; exact hle)]
  · intro p hp
    have hs : ∀ u ∈ badgeTiers, ¬ ((u : ℚ) ≤ p) := by
      intro u hu
      fin_cases hu <;> [skip; skip; skip; skip; skip] <;>
        · intro hc
          push_cast at hc
          linarith
    simp only [badge, badgeTiers]
    rw [List.find?_eq_none.mpr]
    intro x hx
    simp only [decide_eq_true_eq]
    exact hs x hx

/-- Witness for C6: the highest-tier case applied at 100 percent. -/
theorem badge_highest_tier_witness :
    ((99 : ℕ) ∈ badgeTiers) ∧ (((99 : ℕ) : ℚ) ≤ 100) ∧
    (∀ u ∈ badgeTiers, (u : ℚ) ≤ 100 → u ≤ 99) ∧
    badge 100 = toString (99 : ℕ) ++ ("%") :=
  ⟨by decide, by decide, by decide,
   badge_highest_tier.1 100 99 (by decide) (by decide) (by decide)⟩

/-! ## Claim C8: the duration parser -/

theorem hoursSumAux_eq_sum (l : List ℕ) :
    ∀ k : ℕ, hoursSumAux k l =
      ∑ j ∈ Finset.range l.length, (l.getD j 0 : ℚ) * 60 ^ (((k : ℤ) + (j : ℤ)) - 2) := by
  induction l with
  | nil => intro k; simp [hoursSumAux]
  | cons v rest ih =>
    intro k
    rw [hoursSumAux, ih (k + 1), List.length_cons, Finset.sum_range_succ']
    simp only [List.getD_cons_succ, List.getD_cons_zero]
    have e1 : (∑ j ∈ Finset.range rest.length,
        (rest.getD j 0 : ℚ) * 60 ^ ((((k + 1 : ℕ)) : ℤ) + (j : ℤ) - 2)) =
        ∑ j ∈ Finset.range rest.length,
          (rest.getD j 0 : ℚ) * 60 ^ ((k : ℤ) + (((j + 1 : ℕ)) : ℤ) - 2) := by
      apply Finset.sum_congr rfl
      intro j _
      have e : ((((k + 1 : ℕ)) : ℤ)) + (j : ℤ) - 2 = (k : ℤ) + (((j + 1 : ℕ)) : ℤ) - 2 := by
        push_cast
        ring
      rw [e]
    have e2 : ((k : ℤ)) - 2 = (k : ℤ) + (((0 : ℕ)) : ℤ) - 2 := by
      push_cast
      ring
    rw [e1, e2]
    ring

/-- C8 (confirmed): on every colon-separated string whose fields all
parse, `parse_hours` returns the spec's weighted sum over fields from
the right (position 0 rightmost, weight sixty to the position minus
two), rounded to 2 decimals; in particular 4:30:00 parses to 4.5 hours
and 28:49 to 0.48 hours. -/
theorem parse_hours_weighted_sum :
    (∀ (s : String) (vals : List ℕ),
      parseFields (s.split (fun c => c == ':')) = some vals →
      parse_hours s = some (specHours vals)) ∧
    parse_hours ("4:30:00") = some (9/2) ∧
    parse_hours ("28:49") = some (12/25) := by
  refine ⟨?_, by with_unfolding_all decide, by with_unfolding_all decide⟩
  intro s vals h
  unfold parse_hours
  rw [h]
  simp only [Option.map_some']
  unfold specHours
  congr 1
  congr 1
  rw [hoursSumAux_eq_sum vals.reverse 0, List.length_reverse]
  apply Finset.sum_congr rfl
  intro j _
  have e : (((0 : ℕ)) : ℤ) + (j : ℤ) - 2 = (j : ℤ) - 2 := by
    push_cast
    ring
  rw [e]

/-- Witness for C8: the general weighted-sum statement applied to the
duration string 4:30:00, whose fields parse to 4, 30 and 0. -/
theorem parse_hours_weighted_sum_witness :
    parseFields (("4:30:00").split (fun c => c == ':')) = some [4, 30, 0] ∧
    parse_hours ("4:30:00") = some (specHours [4, 30, 0]) :=
  ⟨by with_unfolding_all decide,
   parse_hours_weighted_sum.1 ("4:30:00") [4, 30, 0] (by with_unfolding_all decide)⟩

/-! ## Claim C9: the degree-1 least-squares fit on linear data -/

/-- C9 (confirmed): the degree-1 least-squares fit of the perfectly
linear samples y = 2x + 1 at x = 0..10 yields exactly the coefficients
(1, 2); the returned evaluator is the line 2x + 1 at every x; those
coefficients attain zero summed squared error, the global minimum of
the least-squares objective. -/
theorem poly_fit_linear_roundtrip :
    poly_fit1 linearSamples = (1, 2) ∧
    (∀ x : ℚ, evalPoly1 (poly_fit1 linearSamples) x = 2 * x + 1) ∧
    SSE linearSamples 1 2 = 0 ∧
    (∀ c0 c1 : ℚ, 0 ≤ SSE linearSamples c0 c1) := by
  have h1 : poly_fit1 linearSamples = (1, 2) := by with_unfolding_all decide
  refine ⟨h1, ?_, by with_unfolding_all decide, ?_⟩
  · intro x
    rw [h1]
    simp only [evalPoly1]
    ring
  · intro c0 c1
    simp only [SSE]
    apply List.sum_nonneg
    intro q hq
    simp only [List.mem_map] at hq
    obtain ⟨pt, _, rfl⟩ := hq
    positivity

/-! ## Sortedness, counting and candidate lemmas for the Eddington
number -/

theorem sortDesc_perm (l : List ℚ) : (sortDesc l).Perm l :=
  List.perm_insertionSort _ l

theorem sortDesc_sorted (l : List ℚ) : (sortDesc l).Sorted (fun a b : ℚ => a ≥ b) :=
  List.sorted_insertionSort _ l

theorem countGeQ_perm {l l' : List ℚ} (h : l.Perm l') (v : ℚ) : countGeQ l v = countGeQ l' v :=
  (h.filter _).length_eq

theorem countGeQ_cons_of_le {a v : ℚ} {t : List ℚ} (h : v ≤ a) :
    countGeQ (a :: t) v = countGeQ t v + 1 := by
  simp [countGeQ, List.filter_cons, h]

theorem countGeQ_cons_le_succ (a v : ℚ) (t : List ℚ) :
    countGeQ (a :: t) v ≤ countGeQ t v + 1 := by
  by_cases h : v ≤ a <;> simp [countGeQ, List.filter_cons, h]

/-- In a descending-sorted list, a rank whose entry still reaches the
threshold bounds the count of qualifying entries from below: the first
i + 1 entries all qualify. -/
theorem rank_le_countGeQ :
    ∀ ds : List ℚ, ds.Sorted (fun a b : ℚ => a ≥ b) →
      ∀ (i : ℕ) (d v : ℚ), ds[i]? = some d → v ≤ d → i + 1 ≤ countGeQ ds v := by
  intro ds
  induction ds with
  | nil => intro _ i d v h _; simp at h
  | cons a t ih =>
    intro hs i d v hget hv
    cases i with
    | zero =>
      have had : a = d := by simpa using hget
      subst had
      have := countGeQ_cons_of_le (t := t) hv
      omega
    | succ i =>
      have hget' : t[i]? = some d := by simpa using hget
      have hd : d ∈ t := List.getElem?_mem hget'
      have hva : v ≤ a := le_trans hv (List.rel_of_sorted_cons hs d hd)
      rw [countGeQ_cons_of_le hva]
      have := ih hs.of_cons i d v hget' hv
      omega

/-- In a descending-sorted list, a rank whose entry is already below the
threshold bounds the count of qualifying entries from above: only
entries strictly before that rank can qualify. -/
theorem countGeQ_le_rank :
    ∀ ds : List ℚ, ds.Sorted (fun a b : ℚ => a ≥ b) →
      ∀ (v : ℚ) (j : ℕ), (∀ d : ℚ, ds[j]? = some d → d < v) → countGeQ ds v ≤ j := by
  intro ds
  induction ds with
  | nil => intro _ v j _; simp [countGeQ]
  | cons a t ih =>
    intro hs v j hj
    cases j with
    | zero =>
      have ha : a < v := hj a (by simp)
      have hzero : countGeQ (a :: t) v = 0 := by
        simp only [countGeQ, List.length_eq_zero, List.filter_eq_nil_iff]
        intro x hx
        simp only [decide_eq_true_eq]
        have hxa : x ≤ a := by
          rcases List.mem_cons.mp hx with rfl | hx'
          · exact le_rfl
          · exact List.rel_of_sorted_cons hs x hx'
        intro hvx
        linarith
      omega
    | succ j =>
      have h1 := countGeQ_cons_le_succ a v t
      have h2 : countGeQ t v ≤ j := ih hs.of_cons v j (fun d hd => hj d (by simpa using hd))
      omega

theorem mem_edCandAux_intro :
    ∀ (ds : List ℚ) (k i : ℕ) (d : ℚ), ds[i]? = some d → ((k + i : ℕ) : ℚ) ≤ d →
      k + i ∈ edCandAux k ds := by
  intro ds
  induction ds with
  | nil => intro k i d h _; simp at h
  | cons a t ih =>
    intro k i d hget hle
    cases i with
    | zero =>
      have had : a = d := by simpa using hget
      subst had
      have hk : (k : ℚ) ≤ a := by
        have e : ((k + 0 : ℕ) : ℚ) = (k : ℚ) := by norm_num
        rwa [e] at hle
      rw [edCandAux, if_pos hk]
      simp
    | succ i =>
      have hget' : t[i]? = some d := by simpa using hget
      have he : k + (i + 1) = (k + 1) + i := by omega
      have hle' : (((k + 1) + i : ℕ) : ℚ) ≤ d := by
        have e : (((k + 1) + i : ℕ) : ℚ) = ((k + (i + 1) : ℕ) : ℚ) := by push_cast; ring
        rwa [e]
      have hmem : (k + 1) + i ∈ edCandAux (k + 1) t := ih (k + 1) i d hget' hle'
      rw [edCandAux]
      split
      · exact List.mem_cons_of_mem _ (by rwa [he])
      · rwa [he]

theorem mem_edCandAux_elim :
    ∀ (ds : List ℚ) (k e : ℕ), e ∈ edCandAux k ds →
      ∃ (i : ℕ) (d : ℚ), ds[i]? = some d ∧ e = k + i ∧ (e : ℚ) ≤ d := by
  intro ds
  induction ds with
  | nil => intro k e h; simp [edCandAux] at h
  | cons a t ih =>
    intro k e h
    rw [edCandAux] at h
    by_cases hc : (k : ℚ) ≤ a
    · rw [if_pos hc] at h
      rcases List.mem_cons.mp h with rfl | h'
      · exact ⟨0, a, by simp, by omega, by simpa using hc⟩
      · obtain ⟨i, d, hget, hei, hd⟩ := ih (k + 1) e h'
        exact ⟨i + 1, d, by simpa using hget, by omega, hd⟩
    · rw [if_neg hc] at h
      obtain ⟨i, d, hget, hei, hd⟩ := ih (k + 1) e h
      exact ⟨i + 1, d, by simpa using hget, by omega, hd⟩

theorem foldl_max_bound :
    ∀ (t : List ℕ) (a : ℕ), a ≤ t.foldl Nat.max a ∧ ∀ x ∈ t, x ≤ t.foldl Nat.max a := by
  intro t
  induction t with
  | nil => intro a; exact ⟨le_rfl, by simp⟩
  | cons b t' ih =>
    intro a
    constructor
    · simp only [List.foldl_cons]
      exact le_trans (Nat.le_max_left a b) (ih (Nat.max a b)).1
    · intro x hx
      simp only [List.foldl_cons]
      rcases List.mem_cons.mp hx with rfl | hx'
      · exact le_trans (Nat.le_max_right a x) (ih (Nat.max a x)).1
      · exact (ih (Nat.max a b)).2 x hx'

theorem foldl_max_mem :
    ∀ (t : List ℕ) (a : ℕ), t.foldl Nat.max a = a ∨ t.foldl Nat.max a ∈ t := by
  intro t
  induction t with
  | nil => intro a; left; rfl
  | cons b t' ih =>
    intro a
    simp only [List.foldl_cons]
    rcases ih (Nat.max a b) with h | h
    · rw [h]
      have h2 : a.max b = a ∨ a.max b = b := max_choice a b
      rcases h2 with h2 | h2
      · left
        exact h2
      · right
        rw [h2]
        simp
    · right
      exact List.mem_cons_of_mem _ h

/-- Python `max` of a nonempty list returns a member that bounds every
member. -/
theorem pymax_spec : ∀ (l : List ℕ) (E : ℕ), pymax l = some E → E ∈ l ∧ ∀ x ∈ l, x ≤ E := by
  intro l E h
  cases l with
  | nil => simp [pymax] at h
  | cons a t =>
    simp only [pymax, Option.some.injEq] at h
    subst h
    constructor
    · rcases foldl_max_mem t a with h | h
      · rw [h]
        simp
      · exact List.mem_cons_of_mem _ h
    · intro x hx
      rcases List.mem_cons.mp hx with rfl | hx'
      · exact (foldl_max_bound t x).1
      · exact (foldl_max_bound t a).2 x hx'

theorem pymax_isSome : ∀ l : List ℕ, l ≠ [] → ∃ E, pymax l = some E := by
  intro l h
  cases l with
  | nil => exact absurd rfl h
  | cons a t => exact ⟨t.foldl Nat.max a, rfl⟩

/-! ## Claim C1: the Eddington number computed by the sorted scan -/

/-- C1 (confirmed): for any distance list with a qualifying entry of at
least one, the sorted-descending linear scan of `Ed_number` returns the
maximum integer E such that at least E entries of the list are at least
E: the result qualifies, and it dominates every qualifying candidate,
so it equals the brute-force maximum over all candidates. -/
theorem Ed_number_eddington_max (l : List ℚ) (hex : ∃ d ∈ l, (1 : ℚ) ≤ d) :
    ∃ E : ℕ, Ed_number l = some E ∧ E ≤ countGe l E ∧
      ∀ e : ℕ, e ≤ countGe l e → e ≤ E := by
  obtain ⟨d0, hd0l, hd01⟩ := hex
  have hperm := sortDesc_perm l
  have hsort := sortDesc_sorted l
  have hd0ds : d0 ∈ sortDesc l := hperm.mem_iff.mpr hd0l
  have hne : sortDesc l ≠ [] := List.ne_nil_of_mem hd0ds
  obtain ⟨a, t, hat⟩ := List.exists_cons_of_ne_nil hne
  have ha0 : (sortDesc l)[0]? = some a := by
    rw [hat]
    exact List.getElem?_cons_zero
  have had0 : d0 ≤ a := by
    rw [hat] at hd0ds hsort
    rcases List.mem_cons.mp hd0ds with rfl | h'
    · exact le_rfl
    · exact List.rel_of_sorted_cons hsort d0 h'
  have h1mem : 1 ∈ edCandAux 1 (sortDesc l) := by
    have h1a : ((1 + 0 : ℕ) : ℚ) ≤ a := by push_cast; linarith
    simpa using mem_edCandAux_intro (sortDesc l) 1 0 a ha0 h1a
  obtain ⟨E, hE⟩ := pymax_isSome _ (List.ne_nil_of_mem h1mem)
  obtain ⟨hEmem, hEub⟩ := pymax_spec _ E hE
  obtain ⟨i, d, hget, hEi, hEd⟩ := mem_edCandAux_elim (sortDesc l) 1 E hEmem
  refine ⟨E, hE, ?_, ?_⟩
  · have h1 : i + 1 ≤ countGeQ (sortDesc l) (E : ℚ) :=
      rank_le_countGeQ (sortDesc l) hsort i d (E : ℚ) hget hEd
    have h2 : countGeQ (sortDesc l) (E : ℚ) = countGeQ l (E : ℚ) := countGeQ_perm hperm _
    unfold countGe
    omega
  · intro e he
    rcases Nat.eq_zero_or_pos e with rfl | hepos
    · exact Nat.zero_le E
    · have hcg : e ≤ countGeQ (sortDesc l) (e : ℚ) := by
        unfold countGe at he
        rwa [countGeQ_perm hperm]
      by_contra hlt
      push_neg at hlt
      have hnotall : ¬ ∀ d' : ℚ, (sortDesc l)[e - 1]? = some d' → d' < (e : ℚ) := by
        intro hall
        have := countGeQ_le_rank (sortDesc l) hsort (e : ℚ) (e - 1) hall
        omega
      push_neg at hnotall
      obtain ⟨d', hget', hd'⟩ := hnotall
      have hle' : ((1 + (e - 1) : ℕ) : ℚ) ≤ d' := by
        have he1 : (1 + (e - 1) : ℕ) = e := by omega
        rw [he1]
        exact hd'
      have hmem : 1 + (e - 1) ∈ edCandAux 1 (sortDesc l) :=
        mem_edCandAux_intro (sortDesc l) 1 (e - 1) d' hget' hle'
      have := hEub _ hmem
      omega

/-- Witness for C1: the Eddington characterisation applied to the
distances 3, 4, 1, whose Eddington number is 2. -/
theorem Ed_number_eddington_max_witness :
    (∃ d ∈ ([3, 4, 1] : List ℚ), (1 : ℚ) ≤ d) ∧
    (∃ E : ℕ, Ed_number [3, 4, 1] = some E ∧ E ≤ countGe [3, 4, 1] E ∧
      ∀ e : ℕ, e ≤ countGe [3, 4, 1] e → e ≤ E) :=
  ⟨by decide, Ed_number_eddington_max _ (by decide)⟩

/-! ## Claim C10: permutation invariance of the Eddington number -/

/-- C10 (confirmed): `Ed_number` sorts its input, so it is invariant
under any reordering of the distance list. -/
theorem Ed_number_perm_invariant (l l' : List ℚ) (hp : l.Perm l')
    (_hex : ∃ d ∈ l, (1 : ℚ) ≤ d) : Ed_number l = Ed_number l' := by
  have hsd : sortDesc l = sortDesc l' :=
    List.eq_of_perm_of_sorted ((sortDesc_perm l).trans (hp.trans (sortDesc_perm l').symm))
      (sortDesc_sorted l) (sortDesc_sorted l')
  unfold Ed_number
  rw [hsd]

/-- Witness for C10: invariance applied to the two orderings of the
distances 3 and 1. -/
theorem Ed_number_perm_invariant_witness :
    (([3, 1] : List ℚ).Perm [1, 3]) ∧ (∃ d ∈ ([3, 1] : List ℚ), (1 : ℚ) ≤ d) ∧
    Ed_number [3, 1] = Ed_number [1, 3] :=
  ⟨List.Perm.swap 1 3 [], by decide,
   Ed_number_perm_invariant _ _ (List.Perm.swap 1 3 []) (by decide)⟩

end BikeCode
